import Mathlib

/-!
Verification of the Cryptex secure-chat core against its specification.

The Python sources are shallowly embedded: byte strings become `List Nat`
(each element `< 256`), text becomes `List Char`, and fallible operations
return `Option`.  The AES block primitive is external library code, so it
is abstracted as a `BlockCipher` structure carrying exactly the algebraic
facts the library guarantees (16-byte blocks, inverse on valid blocks);
everything built on top of it — PKCS#7-style padding, CBC chaining,
base-64 transport coding, IV handling, the relay routing and the stream
framer — is translated directly from the source files.
-/

namespace Cryptex

/-- Predicate: every element of the list is a byte value. -/
def ByteList (l : List Nat) : Prop := ∀ x ∈ l, x < 256

instance (l : List Nat) : Decidable (ByteList l) := by
  unfold ByteList; infer_instance

/-- Abstraction of the AES-256 block primitive from the external library
(`Crypto.Cipher.AES`): a keyed pair of block maps that are mutually inverse
on 16-byte blocks.  One `BlockCipher` value models `AES.new` for one key. -/
structure BlockCipher where
  enc : List Nat → List Nat
  dec : List Nat → List Nat
  length_enc : ∀ b, b.length = 16 → (enc b).length = 16
  byte_enc : ∀ b, b.length = 16 → ByteList b → ByteList (enc b)
  dec_enc : ∀ b, b.length = 16 → ByteList b → dec (enc b) = b

/-- Pointwise XOR of two byte strings (the CBC chaining operation). -/
def xorBytes (a b : List Nat) : List Nat := List.zipWith (fun x y => x ^^^ y) a b

/-- CBC-mode encryption over 16-byte blocks.  `fuel` is a structural bound
on the number of blocks; every block consumes at least one unit, so any
`fuel ≥ p.length` computes the full chaining. -/
def cbcEncryptAux (C : BlockCipher) : Nat → List Nat → List Nat → List Nat
  | _, _, [] => []
  | 0, _, _ :: _ => []
  | fuel + 1, prev, p =>
    let c := C.enc (xorBytes prev (p.take 16))
    c ++ cbcEncryptAux C fuel c (p.drop 16)

/-- CBC-mode encryption, as performed by
`AES.new(aes_key, AES.MODE_CBC, iv).encrypt`. -/
def cbcEncrypt (C : BlockCipher) (prev p : List Nat) : List Nat :=
  cbcEncryptAux C p.length prev p

/-- CBC-mode decryption over 16-byte blocks, fuelled like `cbcEncryptAux`. -/
def cbcDecryptAux (C : BlockCipher) : Nat → List Nat → List Nat → List Nat
  | _, _, [] => []
  | 0, _, _ :: _ => []
  | fuel + 1, prev, c =>
    xorBytes prev (C.dec (c.take 16)) ++ cbcDecryptAux C fuel (c.take 16) (c.drop 16)

/-- CBC-mode decryption, as performed by
`AES.new(aes_key, AES.MODE_CBC, iv).decrypt`. -/
def cbcDecrypt (C : BlockCipher) (prev c : List Nat) : List Nat :=
  cbcDecryptAux C c.length prev c

/-- PKCS#7-style padding from `encrypt_message`:
`padding_length = 16 - (len % 16)`, append that many bytes of that value. -/
def padMessage (m : List Nat) : List Nat :=
  m ++ List.replicate (16 - m.length % 16) (16 - m.length % 16)

/-- The standard base-64 alphabet used by `base64.b64encode`. -/
def b64chars : List Char :=
  "ABCDEFGHIJKLMNOPQRSTUVWXYZabcdefghijklmnopqrstuvwxyz0123456789+/".toList

/-- Character for one 6-bit group. -/
def sextetChar (s : Nat) : Char := b64chars.getD s 'A'

/-- Inverse alphabet lookup; `none` for a non-alphabet character. -/
def charSextet (c : Char) : Option Nat := List.findIdx? (fun d => d == c) b64chars

/-- Model of `base64.b64encode`: bytes to base-64 text, three bytes per four
characters, with `=` padding on a short final group. -/
def b64encode : List Nat → List Char
  | [] => []
  | [a] => [sextetChar (a / 4), sextetChar (a % 4 * 16), '=', '=']
  | [a, b] => [sextetChar (a / 4), sextetChar (a % 4 * 16 + b / 16),
               sextetChar (b % 16 * 4), '=']
  | a :: b :: c :: rest =>
    sextetChar (a / 4) :: sextetChar (a % 4 * 16 + b / 16) ::
    sextetChar (b % 16 * 4 + c / 64) :: sextetChar (c % 64) :: b64encode rest

/-- Model of `base64.b64decode`: base-64 text back to bytes; `none` when the text is
not a well-formed base-64 encoding (the transport-decoding failure case). -/
def b64decode : List Char → Option (List Nat)
  | [] => some []
  | c1 :: c2 :: c3 :: c4 :: rest =>
    if c3 == '=' && c4 == '=' && rest.isEmpty then
      match charSextet c1, charSextet c2 with
      | some s1, some s2 => some [s1 * 4 + s2 / 16]
      | _, _ => none
    else if c4 == '=' && rest.isEmpty then
      match charSextet c1, charSextet c2, charSextet c3 with
      | some s1, some s2, some s3 =>
        some [s1 * 4 + s2 / 16, s2 % 16 * 16 + s3 / 4]
      | _, _, _ => none
    else
      match charSextet c1, charSextet c2, charSextet c3, charSextet c4,
            b64decode rest with
      | some s1, some s2, some s3, some s4, some bs =>
        some ((s1 * 4 + s2 / 16) :: (s2 % 16 * 16 + s3 / 4) ::
              (s3 % 4 * 64 + s4) :: bs)
      | _, _, _, _, _ => none
  | _ => none

/-- A UTF-8 continuation byte. -/
def contByte (b : Nat) : Bool := 128 ≤ b && b ≤ 191

/-- Byte-level validity of a UTF-8 encoding, modelling whether Python's
`bytes.decode` succeeds on the byte string. -/
def validUtf8 : List Nat → Bool
  | [] => true
  | b :: rest =>
    if b ≤ 127 then validUtf8 rest
    else if 194 ≤ b && b ≤ 223 then
      match rest with
      | c1 :: rest2 => contByte c1 && validUtf8 rest2
      | [] => false
    else if b = 224 then
      match rest with
      | c1 :: c2 :: rest2 => (160 ≤ c1 && c1 ≤ 191) && contByte c2 && validUtf8 rest2
      | _ => false
    else if (225 ≤ b && b ≤ 236) || b = 238 || b = 239 then
      match rest with
      | c1 :: c2 :: rest2 => contByte c1 && contByte c2 && validUtf8 rest2
      | _ => false
    else if b = 237 then
      match rest with
      | c1 :: c2 :: rest2 => (128 ≤ c1 && c1 ≤ 159) && contByte c2 && validUtf8 rest2
      | _ => false
    else if b = 240 then
      match rest with
      | c1 :: c2 :: c3 :: rest2 =>
        (144 ≤ c1 && c1 ≤ 191) && contByte c2 && contByte c3 && validUtf8 rest2
      | _ => false
    else if 241 ≤ b && b ≤ 243 then
      match rest with
      | c1 :: c2 :: c3 :: rest2 =>
        contByte c1 && contByte c2 && contByte c3 && validUtf8 rest2
      | _ => false
    else if b = 244 then
      match rest with
      | c1 :: c2 :: c3 :: rest2 =>
        (128 ≤ c1 && c1 ≤ 143) && contByte c2 && contByte c3 && validUtf8 rest2
      | _ => false
    else false

/-- Python's `l[:-n]` on a byte string: for `n = 0` this is `l[:0] = []`
(because `-0 = 0`), otherwise it drops the last `n` elements. -/
def pySliceDropTail (l : List Nat) (n : Nat) : List Nat :=
  if n = 0 then [] else l.take (l.length - n)

/-- Model of `CryptoHandler.encrypt_message`: pad the UTF-8 bytes of the message,
CBC-encrypt them under the fresh IV, and base-64 encode `iv ++ ciphertext`.
The randomly drawn IV (`generate_aes_iv`) is passed explicitly. -/
def encrypt_message (C : BlockCipher) (iv m : List Nat) : List Char :=
  b64encode (iv ++ cbcEncrypt C iv (padMessage m))

/-- Model of `CryptoHandler.decrypt_message`: base-64 decode, split off the 16-byte
IV, CBC-decrypt, read the last byte as the padding length and slice it off,
then UTF-8 decode.  Any exception on the Python side (bad transport
encoding, wrong IV length, misaligned ciphertext, empty plaintext buffer,
invalid UTF-8) is caught and surfaces as `None`, modelled by `none`. -/
def decrypt_message (C : BlockCipher) (s : List Char) : Option (List Nat) :=
  (b64decode s).bind fun data =>
    if data.length < 16 then none
    else
      let ct := data.drop 16
      if ct.length % 16 ≠ 0 then none
      else
        let padded := cbcDecrypt C (data.take 16) ct
        padded.getLast?.bind fun n =>
          let msg := pySliceDropTail padded n
          if validUtf8 msg then some msg else none

/-- The identity block cipher: a concrete `BlockCipher` instance used to
evaluate the embedding on closed inputs. -/
def idCipher : BlockCipher where
  enc := fun b => b
  dec := fun b => b
  length_enc := fun _ h => h
  byte_enc := fun _ _ hb => hb
  dec_enc := fun _ _ _ => rfl

/-- Model of `CryptoHandler.create_hmac`: delegate to the keyed hash primitive
(`hmac.new(key, message, hashlib.sha256).hexdigest()`), abstracted as `H`. -/
def create_hmac (H : List Nat → List Nat → List Char) (message key : List Nat) :
    List Char := H key message

/-- Model of `CryptoHandler.verify_hmac`: recompute the tag and compare with
`hmac.compare_digest` (constant-time equality of the two digests). -/
def verify_hmac (H : List Nat → List Nat → List Char) (message : List Nat)
    (received : List Char) (key : List Nat) : Bool :=
  create_hmac H message key == received

/-- Model of `CryptoHandler.encrypt_aes_key_with_rsa`: look the recipient up in
`peer_public_keys` (raising, caught, when absent), OAEP-encrypt the AES key
under the recipient's RSA key (abstracted as `oaep`, which is external
library code and may itself fail), and base-64 encode the result.  Every
failure is caught by the surrounding `except` and returned as `None`. -/
def encrypt_aes_key_with_rsa {K : Type} (peerKeys : List (List Char × K))
    (oaep : K → List Nat → Option (List Nat)) (aesKey : List Nat)
    (recipient : List Char) : Option (List Char) :=
  (peerKeys.find? (fun p => p.1 == recipient)).bind fun p =>
    (oaep p.2 aesKey).bind fun ek => some (b64encode ek)

/-- The server-side client directory `self.clients`, keyed by username. -/
abbrev Directory (H : Type) := List (List Char × H)

/-- The duplicate-username check and registration from
`ChatServer.handle_client` (lines 97–109), executed under `self.lock`:
if the username is present the connection is rejected and the directory is
untouched, otherwise the entry is inserted.  Returns the new directory and
whether registration succeeded. -/
def tryRegister {H : Type} (clients : Directory H) (u : List Char) (h : H) :
    Directory H × Bool :=
  match clients.find? (fun p => p.1 == u) with
  | some _ => (clients, false)
  | none => (clients ++ [(u, h)], true)

/-- A sequence of registration attempts, in order. -/
def registerAll {H : Type} (clients : Directory H) (reqs : List (List Char × H)) :
    Directory H :=
  reqs.foldl (fun st r => (tryRegister st r.1 r.2).1) clients

/-- The constant `config.MSG_SEPARATOR`. -/
def msgSep : List Char := "||".toList

/-- The constant `config.MSG_DELIMITER`. -/
def msgDelim : List Char := "\n###MSG###\n".toList

/-- The constant `config.MSG_TYPE_MESSAGE`. -/
def typeMESSAGE : List Char := "MESSAGE".toList

/-- The constant `config.MSG_TYPE_BROADCAST`. -/
def typeBROADCAST : List Char := "BROADCAST".toList

/-- The wire envelope built in `send_direct_message`:
`MESSAGE||sender||encrypted_content` followed by the delimiter. -/
def directWire (sender content : List Char) : List Char :=
  typeMESSAGE ++ msgSep ++ sender ++ msgSep ++ content ++ msgDelim

/-- The wire envelope built in `broadcast_message`:
`BROADCAST||sender||encrypted_content` followed by the delimiter. -/
def broadcastWire (sender content : List Char) : List Char :=
  typeBROADCAST ++ msgSep ++ sender ++ msgSep ++ content ++ msgDelim

/-- The fan-out loop of `ChatServer.broadcast_message`: walk the directory
in order; skip the sender; a successful send delivers the wire envelope, a
failing send records the target as disconnected.  `sendFails` models which
transport handles raise on `send`.  Returns the deliveries (in directory
order) and the usernames collected in `disconnected`. -/
def broadcastLoop {H : Type} (sender content : List Char) (sendFails : H → Bool) :
    Directory H → List (List Char × List Char) × List (List Char)
  | [] => ([], [])
  | (u, s) :: rest =>
    let r := broadcastLoop sender content sendFails rest
    if u == sender then r
    else if sendFails s then (r.1, u :: r.2)
    else ((u, broadcastWire sender content) :: r.1, r.2)

/-- Model of `ChatServer.broadcast_message`: fan out to everyone but the sender,
then delete the entries whose sends failed from the directory. -/
def broadcast_message {H : Type} (clients : Directory H)
    (sender content : List Char) (sendFails : H → Bool) :
    List (List Char × List Char) × Directory H :=
  let r := broadcastLoop sender content sendFails clients
  (r.1, clients.filter (fun p => !(r.2.contains p.1)))

/-- Model of `ChatServer.send_direct_message`: if the recipient is registered, send
the wire envelope to the recipient's socket (a send failure is caught and
ignored); if not registered, do nothing at all. -/
def send_direct_message {H : Type} (clients : Directory H)
    (sender recipient content : List Char) (sendFails : H → Bool) :
    List (List Char × List Char) :=
  match clients.find? (fun p => p.1 == recipient) with
  | some p => if sendFails p.2 then [] else [(recipient, directWire sender content)]
  | none => []

/-- Whether `pat` is an initial segment of `s`. -/
def startsWith : List Char → List Char → Bool
  | _, [] => true
  | [], _ :: _ => false
  | c :: s, d :: ds => c == d && startsWith s ds

/-- Split at the first occurrence of `sep`, or `none` when `sep` does not
occur (the engine behind Python's `str.split(sep, maxsplit)`). -/
def splitFirst (sep : List Char) : List Char → Option (List Char × List Char)
  | [] => if sep.isEmpty then some ([], []) else none
  | c :: rest =>
    if startsWith (c :: rest) sep then some ([], (c :: rest).drop sep.length)
    else
      match splitFirst sep rest with
      | some r => some (c :: r.1, r.2)
      | none => none

/-- Python's `s.split(sep, maxsplit)`: split at the leftmost occurrence of
`sep` at most `maxsplit` times; the final part keeps any further
occurrences verbatim. -/
def pySplit (sep : List Char) : Nat → List Char → List (List Char)
  | 0, s => [s]
  | Nat.succ n, s =>
    match splitFirst sep s with
    | none => [s]
    | some r => r.1 :: pySplit sep n r.2

/-- Model of `ChatServer.route_message`: split the received data on `||` at most
twice; fewer than two parts is ignored; `BROADCAST` fans the second part
out; `MESSAGE` with three parts unicasts the third part to the recipient
named by the second; anything else is ignored.  The authenticated `sender`
of the connection — never a field of `message_data` — is stamped into the
forwarded envelopes.  Returns the deliveries and the updated directory. -/
def route_message {H : Type} (clients : Directory H)
    (sender message_data : List Char) (sendFails : H → Bool) :
    List (List Char × List Char) × Directory H :=
  let parts := pySplit msgSep 2 message_data
  if parts.length < 2 then ([], clients)
  else if parts.headD [] == typeBROADCAST then
    broadcast_message clients sender (parts.getD 1 []) sendFails
  else if parts.headD [] == typeMESSAGE then
    if parts.length < 3 then ([], clients)
    else (send_direct_message clients sender (parts.getD 1 []) (parts.getD 2 [])
            sendFails, clients)
  else ([], clients)

/-- The scanning loop of `ChatClient.receive_messages`:
`while MSG_DELIMITER in buffer: message, buffer = buffer.split(MSG_DELIMITER, 1)`.
`cur` is the part of the current span read so far.  Returns the complete
delimiter-terminated spans in arrival order and the trailing partial span
that stays buffered. -/
def scanFramesAux : Nat → List Char → List Char → List (List Char) × List Char
  | _, cur, [] => ([], cur)
  | 0, cur, s => ([], cur ++ s)
  | fuel + 1, cur, c :: rest =>
    if startsWith (c :: rest) msgDelim then
      let r := scanFramesAux fuel [] ((c :: rest).drop msgDelim.length)
      (cur :: r.1, r.2)
    else scanFramesAux fuel (cur ++ [c]) rest

/-- Scan a whole buffer: enough fuel for every character. -/
def scanFrames (cur s : List Char) : List (List Char) × List Char :=
  scanFramesAux s.length cur s

/-- The whitespace characters stripped by Python's `str.strip()` (ASCII). -/
def pySpace (c : Char) : Bool :=
  c == ' ' || c == '\t' || c == '\n' || c == '\r' ||
  c == Char.ofNat 11 || c == Char.ofNat 12

/-- Python's `str.strip()`. -/
def pyStrip (s : List Char) : List Char :=
  ((s.dropWhile pySpace).reverse.dropWhile pySpace).reverse

/-- One iteration of the receive loop of `ChatClient.receive_messages`:
append the newly read data to the buffer, extract every complete span, and
hand a span on (unmodified) exactly when `message.strip()` is non-empty. -/
def receiveStep (buffer data : List Char) : List (List Char) × List Char :=
  let r := scanFrames [] (buffer ++ data)
  (r.1.filter (fun m => !(pyStrip m).isEmpty), r.2)

/-- The whole receive loop over a sequence of transport reads, starting
from the empty buffer: accumulated delivered spans and final buffer. -/
def foldFrames (reads : List (List Char)) : List (List Char) × List Char :=
  reads.foldl (fun acc d => ((acc.1 ++ (receiveStep acc.2 d).1),
                             (receiveStep acc.2 d).2)) ([], [])

/-- Whether `pat` occurs as a contiguous substring of `s`. -/
def containsSub (pat : List Char) : List Char → Bool
  | [] => pat.isEmpty
  | c :: rest => startsWith (c :: rest) pat || containsSub pat rest

/-- Reassemble spans and a trailing buffer into the original byte stream. -/
def rejoin : List (List Char) → List Char → List Char
  | [], b => b
  | m :: ms, b => m ++ msgDelim ++ rejoin ms b

/-- A concrete keyed hash used to evaluate the HMAC embedding on closed
inputs. -/
def toyHash (key m : List Nat) : List Char :=
  (key ++ m).map (fun n => sextetChar (n % 64))

/-! ## Helper lemmas: base-64 -/

theorem charSextet_sextetChar : ∀ s, s < 64 → charSextet (sextetChar s) = some s := by
  decide

theorem sextetChar_ne_pad : ∀ s, s < 64 → (sextetChar s == '=') = false := by
  decide

theorem byteList_cons_head {a : Nat} {l : List Nat} (h : ByteList (a :: l)) : a < 256 :=
  h a (by simp)

theorem byteList_cons_tail {a : Nat} {l : List Nat} (h : ByteList (a :: l)) : ByteList l :=
  fun x hx => h x (by simp [hx])

theorem byteList_append {a b : List Nat} (ha : ByteList a) (hb : ByteList b) :
    ByteList (a ++ b) := by
  intro x hx
  rcases List.mem_append.mp hx with h | h
  · exact ha x h
  · exact hb x h

theorem take_len_append {α : Type} {L R : List α} {n : Nat} (hL : L.length = n) :
    (L ++ R).take n = L := by
  rw [← hL]
  exact List.take_left _ _

theorem drop_len_append {α : Type} {L R : List α} {n : Nat} (hL : L.length = n) :
    (L ++ R).drop n = R := by
  rw [← hL]
  exact List.drop_left _ _

/-- Decoding inverts encoding on genuine byte strings. -/
theorem b64decode_encode : ∀ m : List Nat, ByteList m → b64decode (b64encode m) = some m
  | [], _ => rfl
  | [a], h => by
    have ha : a < 256 := byteList_cons_head h
    have e1 := charSextet_sextetChar (a / 4) (by omega)
    have e2 := charSextet_sextetChar (a % 4 * 16) (by omega)
    simp only [b64encode]
    simp [b64decode, e1, e2]
    omega
  | [a, b], h => by
    have ha : a < 256 := byteList_cons_head h
    have hb : b < 256 := byteList_cons_head (byteList_cons_tail h)
    have e1 := charSextet_sextetChar (a / 4) (by omega)
    have e2 := charSextet_sextetChar (a % 4 * 16 + b / 16) (by omega)
    have e3 := charSextet_sextetChar (b % 16 * 4) (by omega)
    have n3 := sextetChar_ne_pad (b % 16 * 4) (by omega)
    simp only [b64encode]
    simp [b64decode, e1, e2, e3, n3]
    omega
  | a :: b :: c :: rest, h => by
    have ha : a < 256 := byteList_cons_head h
    have hb : b < 256 := byteList_cons_head (byteList_cons_tail h)
    have hc : c < 256 := byteList_cons_head (byteList_cons_tail (byteList_cons_tail h))
    have hrest : ByteList rest :=
      byteList_cons_tail (byteList_cons_tail (byteList_cons_tail h))
    have e1 := charSextet_sextetChar (a / 4) (by omega)
    have e2 := charSextet_sextetChar (a % 4 * 16 + b / 16) (by omega)
    have e3 := charSextet_sextetChar (b % 16 * 4 + c / 64) (by omega)
    have e4 := charSextet_sextetChar (c % 64) (by omega)
    have n3 := sextetChar_ne_pad (b % 16 * 4 + c / 64) (by omega)
    have n4 := sextetChar_ne_pad (c % 64) (by omega)
    have ihr := b64decode_encode rest hrest
    simp only [b64encode]
    simp [b64decode, e1, e2, e3, e4, n3, n4, ihr]
    omega

/-- Base-64 encoding is injective on byte strings. -/
theorem b64encode_injective {m1 m2 : List Nat} (h1 : ByteList m1) (h2 : ByteList m2)
    (he : b64encode m1 = b64encode m2) : m1 = m2 := by
  have := b64decode_encode m1 h1
  rw [he, b64decode_encode m2 h2] at this
  exact (Option.some.injEq _ _ ▸ this).symm

/-! ## Helper lemmas: XOR and CBC -/

theorem xorBytes_cancel : ∀ a b : List Nat, a.length = b.length →
    xorBytes a (xorBytes a b) = b := by
  intro a
  induction a with
  | nil =>
    intro b hb
    have : b = [] := List.length_eq_zero.mp (by simpa using hb.symm)
    subst this
    rfl
  | cons x xs ih =>
    intro b hb
    cases b with
    | nil => simp at hb
    | cons y ys =>
      have hlen : xs.length = ys.length := by
        simpa using hb
      simp only [xorBytes, List.zipWith_cons_cons]
      rw [Nat.xor_cancel_left]
      exact congrArg (List.cons y) (ih ys hlen)

theorem byteList_xorBytes : ∀ a b : List Nat, ByteList a → ByteList b →
    ByteList (xorBytes a b) := by
  intro a
  induction a with
  | nil => intro b _ _; simp [xorBytes, ByteList]
  | cons x xs ih =>
    intro b ha hb
    cases b with
    | nil => simp [xorBytes, ByteList]
    | cons y ys =>
      intro z hz
      simp only [xorBytes, List.zipWith_cons_cons, List.mem_cons] at hz
      rcases hz with hz | hz
      · subst hz
        have : (256 : Nat) = 2 ^ 8 := by norm_num
        rw [this]
        exact Nat.xor_lt_two_pow (this ▸ byteList_cons_head ha)
          (this ▸ byteList_cons_head hb)
      · exact ih ys (byteList_cons_tail ha) (byteList_cons_tail hb) z hz

theorem xorBytes_length (a b : List Nat) :
    (xorBytes a b).length = min a.length b.length := by
  simp [xorBytes]

theorem cbcEncryptAux_cons (C : BlockCipher) (fuel : Nat) (prev l : List Nat)
    (hl : l ≠ []) :
    cbcEncryptAux C (fuel + 1) prev l =
      C.enc (xorBytes prev (l.take 16)) ++
        cbcEncryptAux C fuel (C.enc (xorBytes prev (l.take 16))) (l.drop 16) := by
  cases l with
  | nil => exact absurd rfl hl
  | cons x xs => rfl

theorem cbcDecryptAux_cons (C : BlockCipher) (fuel : Nat) (prev l : List Nat)
    (hl : l ≠ []) :
    cbcDecryptAux C (fuel + 1) prev l =
      xorBytes prev (C.dec (l.take 16)) ++ cbcDecryptAux C fuel (l.take 16) (l.drop 16) := by
  cases l with
  | nil => exact absurd rfl hl
  | cons x xs => rfl

theorem cbcEncryptAux_nil (C : BlockCipher) (fuel : Nat) (prev : List Nat) :
    cbcEncryptAux C fuel prev [] = [] := by
  cases fuel <;> rfl

/-- The head block of the chaining: 16 bytes of ciphertext. -/
theorem headBlock_spec (C : BlockCipher) (prev p : List Nat) (hprev : prev.length = 16)
    (hbprev : ByteList prev) (hbp : ByteList p) (h16 : 16 ≤ p.length) :
    (xorBytes prev (p.take 16)).length = 16 ∧ ByteList (xorBytes prev (p.take 16)) ∧
      (C.enc (xorBytes prev (p.take 16))).length = 16 ∧
      ByteList (C.enc (xorBytes prev (p.take 16))) := by
  have htl : (p.take 16).length = 16 := by
    simp only [List.length_take]
    omega
  have hxl : (xorBytes prev (p.take 16)).length = 16 := by
    rw [xorBytes_length, hprev, htl]
    simp
  have hxb : ByteList (xorBytes prev (p.take 16)) :=
    byteList_xorBytes _ _ hbprev (fun x hx => hbp x (List.mem_of_mem_take hx))
  exact ⟨hxl, hxb, C.length_enc _ hxl, C.byte_enc _ hxl hxb⟩

theorem cbcEncryptAux_length (C : BlockCipher) : ∀ (fuel : Nat) (prev p : List Nat),
    p.length ≤ fuel → 16 ∣ p.length → prev.length = 16 → ByteList prev → ByteList p →
    (cbcEncryptAux C fuel prev p).length = p.length := by
  intro fuel
  induction fuel with
  | zero =>
    intro prev p hf _ _ _ _
    have : p = [] := List.length_eq_zero.mp (by omega)
    subst this
    rfl
  | succ k ih =>
    intro prev p hf hd hprev hbprev hbp
    cases p with
    | nil => rfl
    | cons x xs =>
      have h16 : 16 ≤ (x :: xs).length := Nat.le_of_dvd (by simp) hd
      obtain ⟨hxl, hxb, hcl, hcb⟩ := headBlock_spec C prev (x :: xs) hprev hbprev hbp h16
      rw [cbcEncryptAux_cons C k prev (x :: xs) (by simp)]
      rw [List.length_append, hcl,
        ih _ _ (by simp only [List.length_drop]; simp at hf ⊢; omega)
          (by simp only [List.length_drop]; omega)
          hcl hcb (fun z hz => hbp z (List.mem_of_mem_drop hz))]
      simp only [List.length_drop]
      omega

theorem cbcEncryptAux_bytes (C : BlockCipher) : ∀ (fuel : Nat) (prev p : List Nat),
    p.length ≤ fuel → 16 ∣ p.length → prev.length = 16 → ByteList prev → ByteList p →
    ByteList (cbcEncryptAux C fuel prev p) := by
  intro fuel
  induction fuel with
  | zero =>
    intro prev p hf _ _ _ _
    have : p = [] := List.length_eq_zero.mp (by omega)
    subst this
    simp [cbcEncryptAux, ByteList]
  | succ k ih =>
    intro prev p hf hd hprev hbprev hbp
    cases p with
    | nil => simp [cbcEncryptAux, ByteList]
    | cons x xs =>
      have h16 : 16 ≤ (x :: xs).length := Nat.le_of_dvd (by simp) hd
      obtain ⟨hxl, hxb, hcl, hcb⟩ := headBlock_spec C prev (x :: xs) hprev hbprev hbp h16
      rw [cbcEncryptAux_cons C k prev (x :: xs) (by simp)]
      exact byteList_append hcb
        (ih _ _ (by simp only [List.length_drop]; simp at hf ⊢; omega)
          (by simp only [List.length_drop]; omega)
          hcl hcb (fun z hz => hbp z (List.mem_of_mem_drop hz)))

/-- CBC decryption undoes CBC encryption block by block. -/
theorem cbcDecryptAux_encryptAux (C : BlockCipher) : ∀ (fuel : Nat) (prev p : List Nat),
    p.length ≤ fuel → 16 ∣ p.length → prev.length = 16 → ByteList prev → ByteList p →
    cbcDecryptAux C fuel prev (cbcEncryptAux C fuel prev p) = p := by
  intro fuel
  induction fuel with
  | zero =>
    intro prev p hf _ _ _ _
    have : p = [] := List.length_eq_zero.mp (by omega)
    subst this
    rfl
  | succ k ih =>
    intro prev p hf hd hprev hbprev hbp
    cases p with
    | nil => rfl
    | cons x xs =>
      have h16 : 16 ≤ (x :: xs).length := Nat.le_of_dvd (by simp) hd
      obtain ⟨hxl, hxb, hcl, hcb⟩ := headBlock_spec C prev (x :: xs) hprev hbprev hbp h16
      have hcne : C.enc (xorBytes prev ((x :: xs).take 16)) ≠ [] := by
        intro hnil
        rw [hnil] at hcl
        simp at hcl
      rw [cbcEncryptAux_cons C k prev (x :: xs) (by simp)]
      rw [cbcDecryptAux_cons C k prev _
        (by intro hnil; exact hcne (List.append_eq_nil.mp hnil).1)]
      rw [take_len_append hcl, drop_len_append hcl, C.dec_enc _ hxl hxb,
        xorBytes_cancel prev _ (by simp only [List.length_take]; omega),
        ih _ _ (by simp only [List.length_drop]; simp at hf ⊢; omega)
          (by simp only [List.length_drop]; omega)
          hcl hcb (fun z hz => hbp z (List.mem_of_mem_drop hz)),
        List.take_append_drop]

/-! ## Helper lemmas: padding -/

theorem padMessage_length (m : List Nat) :
    (padMessage m).length = m.length + (16 - m.length % 16) := by
  simp [padMessage]

theorem padMessage_dvd (m : List Nat) : 16 ∣ (padMessage m).length := by
  rw [padMessage_length]
  omega

theorem byteList_padMessage {m : List Nat} (hm : ByteList m) : ByteList (padMessage m) := by
  intro x hx
  rcases List.mem_append.mp hx with h | h
  · exact hm x h
  · have := List.eq_of_mem_replicate h
    omega

theorem padMessage_getLast? (m : List Nat) :
    (padMessage m).getLast? = some (16 - m.length % 16) := by
  have hn : 1 ≤ 16 - m.length % 16 := by omega
  obtain ⟨k, hk⟩ : ∃ k, 16 - m.length % 16 = k + 1 :=
    ⟨16 - m.length % 16 - 1, by omega⟩
  unfold padMessage
  have hrep : List.replicate (k + 1) (k + 1) = List.replicate k (k + 1) ++ [k + 1] := by
    rw [List.replicate_succ']
  have h1 : (m ++ (List.replicate k (k + 1) ++ [k + 1])).getLast? =
      (List.replicate k (k + 1) ++ [k + 1]).getLast? :=
    List.getLast?_append_of_ne_nil _ (by simp)
  have h2 : (List.replicate k (k + 1) ++ [k + 1]).getLast? =
      ([k + 1] : List Nat).getLast? :=
    List.getLast?_append_of_ne_nil _ (by simp)
  rw [hk, hrep, h1, h2]
  rfl

theorem pySliceDropTail_pad (m : List Nat) :
    pySliceDropTail (padMessage m) (16 - m.length % 16) = m := by
  have hn : 1 ≤ 16 - m.length % 16 := by omega
  unfold pySliceDropTail
  rw [if_neg (by omega), padMessage_length]
  have : m.length + (16 - m.length % 16) - (16 - m.length % 16) = m.length := by omega
  rw [this]
  exact take_len_append rfl

/-! ## Claim theorems -/

/-- C1: for every plaintext byte string `m` (the UTF-8 encoding of the
Python string, including the empty and block-aligned cases) and every key
(abstracted as the block cipher the key induces),
`decrypt_message (encrypt_message m) = some m`, whatever fresh 16-byte IV
the encryption drew. -/
theorem C1_encrypt_decrypt_round_trip (C : BlockCipher) (iv m : List Nat)
    (hiv : iv.length = 16) (hivb : ByteList iv) (hmb : ByteList m)
    (hutf : validUtf8 m = true) :
    decrypt_message C (encrypt_message C iv m) = some m := by
  have hpd : 16 ∣ (padMessage m).length := padMessage_dvd m
  have hpb : ByteList (padMessage m) := byteList_padMessage hmb
  have hctl : (cbcEncrypt C iv (padMessage m)).length = (padMessage m).length :=
    cbcEncryptAux_length C _ iv _ le_rfl hpd hiv hivb hpb
  have hctb : ByteList (cbcEncrypt C iv (padMessage m)) :=
    cbcEncryptAux_bytes C _ iv _ le_rfl hpd hiv hivb hpb
  have hct16 : 16 ≤ (cbcEncrypt C iv (padMessage m)).length := by
    rw [hctl, padMessage_length]
    omega
  unfold encrypt_message decrypt_message
  rw [b64decode_encode _ (byteList_append hivb hctb), Option.some_bind]
  rw [if_neg (by simp only [List.length_append, hiv]; omega)]
  simp only [take_len_append hiv, drop_len_append hiv]
  rw [if_neg (by push_neg; rw [hctl]; omega)]
  unfold cbcDecrypt
  rw [hctl]
  unfold cbcEncrypt at *
  rw [cbcDecryptAux_encryptAux C _ iv _ le_rfl hpd hiv hivb hpb]
  rw [padMessage_getLast?, Option.some_bind]
  simp only [pySliceDropTail_pad, if_pos hutf]

/-- Closed instance of C1 evaluated on concrete inputs. -/
theorem C1_encrypt_decrypt_round_trip_witness :
    decrypt_message idCipher
      (encrypt_message idCipher (List.replicate 16 7) [104, 105]) = some [104, 105] :=
  C1_encrypt_decrypt_round_trip idCipher (List.replicate 16 7) [104, 105]
    (by decide) (by decide) (by decide) (by decide)

/-- C3: `encrypt_message` pads with `n` bytes of value `n` where
`1 ≤ n ≤ 16` and `n = 16` exactly when the plaintext is block-aligned, and
its output base-64 decodes to the 16-byte IV followed by a block-aligned
ciphertext. -/
theorem C3_padding_and_ciphertext_layout (C : BlockCipher) (iv m : List Nat)
    (hiv : iv.length = 16) (hivb : ByteList iv) (hmb : ByteList m) :
    (1 ≤ 16 - m.length % 16 ∧ 16 - m.length % 16 ≤ 16) ∧
    (m.length % 16 = 0 → 16 - m.length % 16 = 16) ∧
    padMessage m = m ++ List.replicate (16 - m.length % 16) (16 - m.length % 16) ∧
    b64decode (encrypt_message C iv m) = some (iv ++ cbcEncrypt C iv (padMessage m)) ∧
    (iv ++ cbcEncrypt C iv (padMessage m)).take 16 = iv ∧
    (cbcEncrypt C iv (padMessage m)).length % 16 = 0 := by
  have hpd : 16 ∣ (padMessage m).length := padMessage_dvd m
  have hpb : ByteList (padMessage m) := byteList_padMessage hmb
  have hctl : (cbcEncrypt C iv (padMessage m)).length = (padMessage m).length :=
    cbcEncryptAux_length C _ iv _ le_rfl hpd hiv hivb hpb
  have hctb : ByteList (cbcEncrypt C iv (padMessage m)) :=
    cbcEncryptAux_bytes C _ iv _ le_rfl hpd hiv hivb hpb
  refine ⟨⟨by omega, by omega⟩, fun h0 => by omega, rfl, ?_, take_len_append hiv, ?_⟩
  · unfold encrypt_message
    exact b64decode_encode _ (byteList_append hivb hctb)
  · rw [hctl]
    omega

/-- Closed instance of C3 evaluated on concrete inputs. -/
theorem C3_padding_and_ciphertext_layout_witness :
    b64decode (encrypt_message idCipher (List.replicate 16 7) [104, 105]) =
      some (List.replicate 16 7 ++
        cbcEncrypt idCipher (List.replicate 16 7) (padMessage [104, 105])) :=
  (C3_padding_and_ciphertext_layout idCipher (List.replicate 16 7) [104, 105]
    (by decide) (by decide) (by decide)).2.2.2.1

/-- C10: two encryptions of the same plaintext under the same key with
distinct fresh IVs never produce the same ciphertext string, because the IV
is embedded in the output and the base-64 transport coding is injective. -/
theorem C10_fresh_iv_distinct_ciphertexts (C : BlockCipher) (iv1 iv2 m : List Nat)
    (h1 : iv1.length = 16) (h2 : iv2.length = 16) (hb1 : ByteList iv1)
    (hb2 : ByteList iv2) (hmb : ByteList m) (hne : iv1 ≠ iv2) :
    encrypt_message C iv1 m ≠ encrypt_message C iv2 m := by
  intro he
  have hpd : 16 ∣ (padMessage m).length := padMessage_dvd m
  have hpb : ByteList (padMessage m) := byteList_padMessage hmb
  have hct1 : ByteList (cbcEncrypt C iv1 (padMessage m)) :=
    cbcEncryptAux_bytes C _ iv1 _ le_rfl hpd h1 hb1 hpb
  have hct2 : ByteList (cbcEncrypt C iv2 (padMessage m)) :=
    cbcEncryptAux_bytes C _ iv2 _ le_rfl hpd h2 hb2 hpb
  unfold encrypt_message at he
  have heq := b64encode_injective (byteList_append hb1 hct1) (byteList_append hb2 hct2) he
  have htake : (iv1 ++ cbcEncrypt C iv1 (padMessage m)).take 16 =
      (iv2 ++ cbcEncrypt C iv2 (padMessage m)).take 16 := by rw [heq]
  rw [take_len_append h1, take_len_append h2] at htake
  exact hne htake

/-- Closed instance of C10 evaluated on concrete inputs. -/
theorem C10_fresh_iv_distinct_ciphertexts_witness :
    encrypt_message idCipher (List.replicate 16 0) [] ≠
      encrypt_message idCipher (List.replicate 16 1) [] :=
  C10_fresh_iv_distinct_ciphertexts idCipher (List.replicate 16 0) (List.replicate 16 1)
    [] (by decide) (by decide) (by decide) (by decide) (by decide) (by decide)

/-- C2 fails on the code: a recovered padding length byte of `0` is outside
`[1, 16]`, yet `decrypt_message` does not fail — Python's `padded[:-0]`
slices the whole plaintext away and the empty string is returned.  Witnessed
on a ciphertext whose CBC decryption is the all-zero block. -/
theorem C2_counterexample :
    (cbcDecrypt idCipher (List.replicate 16 1) (List.replicate 16 1)).getLast? =
      some 0 ∧
    decrypt_message idCipher
      (b64encode (List.replicate 16 1 ++ List.replicate 16 1)) = some [] :=
  ⟨by decide, by decide⟩

/-- C2 (amended): `decrypt_message` fails with an explicit `None` when the
transport decoding fails or the decoded input is shorter than one IV-block;
but a recovered padding length byte of `0` (outside `[1, 16]`) is NOT
rejected: the plaintext is silently mistruncated to the empty string. -/
theorem C2_decrypt_failure_cases (C : BlockCipher) (s : List Char) :
    (b64decode s = none → decrypt_message C s = none) ∧
    (∀ data, b64decode s = some data → data.length < 16 →
      decrypt_message C s = none) ∧
    (∀ data, b64decode s = some data → 16 ≤ data.length →
      (data.drop 16).length % 16 = 0 →
      (cbcDecrypt C (data.take 16) (data.drop 16)).getLast? = some 0 →
      decrypt_message C s = some []) := by
  refine ⟨fun h => ?_, fun data h hlt => ?_, fun data h hge hal hlast => ?_⟩
  · unfold decrypt_message
    rw [h]
    rfl
  · unfold decrypt_message
    rw [h, Option.some_bind, if_pos hlt]
  · unfold decrypt_message
    rw [h, Option.some_bind, if_neg (by omega), if_neg (by omega)]
    simp only [hlast, Option.some_bind]
    simp [pySliceDropTail]
    decide

/-- Closed instance of the amended C2 evaluated on concrete inputs. -/
theorem C2_decrypt_failure_cases_witness :
    decrypt_message idCipher ("!".toList) = none ∧
    decrypt_message idCipher ("TQ==".toList) = none ∧
    decrypt_message idCipher
      (b64encode (List.replicate 16 1 ++ List.replicate 16 1)) = some [] :=
  ⟨(C2_decrypt_failure_cases idCipher ("!".toList)).1 (by decide),
   (C2_decrypt_failure_cases idCipher ("TQ==".toList)).2.1 [77] (by decide) (by decide),
   (C2_decrypt_failure_cases idCipher _).2.2 (List.replicate 16 1 ++ List.replicate 16 1)
     (by decide) (by decide) (by decide) (by decide)⟩

/-- C4 fails on the code: a key-wrap failure is reported as a bare `None`,
not as a distinguishable result variant — the missing-peer-key case and an
OAEP-level failure produce the identical `None` value. -/
theorem C4_counterexample :
    encrypt_aes_key_with_rsa ([] : List (List Char × Unit)) (fun _ k => some k) [0]
      ("bob".toList) = none ∧
    encrypt_aes_key_with_rsa [(("bob".toList), ())] (fun _ _ => none) [0]
      ("bob".toList) = none :=
  ⟨by decide, by decide⟩

/-- C4 (amended): every failure of a crypto-engine operation is reported to
the caller as the single undifferentiated value `None`: key wrap with no
public key on file returns `None`, key wrap whose OAEP step fails returns
the same `None`, and a decryption whose transport decoding fails returns
`None`. -/
theorem C4_failures_return_none {K : Type} (peerKeys : List (List Char × K))
    (oaep : K → List Nat → Option (List Nat)) (aesKey : List Nat)
    (recipient : List Char) :
    (peerKeys.find? (fun p => p.1 == recipient) = none →
      encrypt_aes_key_with_rsa peerKeys oaep aesKey recipient = none) ∧
    (∀ pr, peerKeys.find? (fun p => p.1 == recipient) = some pr →
      oaep pr.2 aesKey = none →
      encrypt_aes_key_with_rsa peerKeys oaep aesKey recipient = none) ∧
    (∀ (C : BlockCipher) (s : List Char), b64decode s = none →
      decrypt_message C s = none) := by
  refine ⟨fun h => ?_, fun pr h hoaep => ?_, fun C s h => ?_⟩
  · unfold encrypt_aes_key_with_rsa
    rw [h]
    rfl
  · unfold encrypt_aes_key_with_rsa
    rw [h, Option.some_bind, hoaep]
    rfl
  · unfold decrypt_message
    rw [h]
    rfl

/-- Closed instance of the amended C4 evaluated on concrete inputs. -/
theorem C4_failures_return_none_witness :
    encrypt_aes_key_with_rsa ([] : List (List Char × Unit)) (fun _ k => some k) [0]
      ("eve".toList) = none ∧
    encrypt_aes_key_with_rsa [(("eve".toList), ())] (fun _ _ => none) [0]
      ("eve".toList) = none :=
  ⟨(C4_failures_return_none [] (fun _ k => some k) [0] ("eve".toList)).1 (by decide),
   (C4_failures_return_none [(("eve".toList), ())] (fun _ _ => none) [0]
     ("eve".toList)).2.1 (("eve".toList), ()) (by decide) (by decide)⟩

/-- C9: verifying a genuine tag succeeds; any altered tag is rejected; and
an altered message is rejected whenever the keyed-hash primitive
distinguishes it from the original (the guarantee the HMAC-SHA256 library
primitive provides for single-byte mutations). -/
theorem C9_hmac_round_trip_and_rejection (H : List Nat → List Nat → List Char)
    (m k : List Nat) :
    verify_hmac H m (create_hmac H m k) k = true ∧
    (∀ t, t ≠ create_hmac H m k → verify_hmac H m t k = false) ∧
    (∀ m2, H k m2 ≠ H k m → verify_hmac H m2 (create_hmac H m k) k = false) := by
  unfold verify_hmac create_hmac
  refine ⟨by simp, fun t ht => ?_, fun m2 hm2 => ?_⟩
  · simp only [beq_eq_false_iff_ne, ne_eq]
    exact fun hh => ht hh.symm
  · simp only [beq_eq_false_iff_ne, ne_eq]
    exact hm2

/-- Closed instance of C9 evaluated on concrete inputs. -/
theorem C9_hmac_round_trip_and_rejection_witness :
    verify_hmac toyHash [1] (create_hmac toyHash [1] [2]) [2] = true ∧
    verify_hmac toyHash [1] [] [2] = false ∧
    verify_hmac toyHash [3] (create_hmac toyHash [1] [2]) [2] = false :=
  ⟨(C9_hmac_round_trip_and_rejection toyHash [1] [2]).1,
   (C9_hmac_round_trip_and_rejection toyHash [1] [2]).2.1 [] (by decide),
   (C9_hmac_round_trip_and_rejection toyHash [1] [2]).2.2 [3] (by decide)⟩

/-! ## Helper lemmas: the session directory -/

theorem find?_none_of_fresh {H : Type} {clients : Directory H} {u : List Char}
    (h : ∀ p ∈ clients, p.1 ≠ u) : clients.find? (fun p => p.1 == u) = none :=
  List.find?_eq_none.mpr fun p hp => by
    simp only [beq_iff_eq]
    exact h p hp

theorem fresh_of_find?_none {H : Type} {clients : Directory H} {u : List Char}
    (h : clients.find? (fun p => p.1 == u) = none) : ∀ p ∈ clients, p.1 ≠ u :=
  fun p hp => by
    have := List.find?_eq_none.mp h p hp
    simpa using this

theorem registerAll_fresh {H : Type} : ∀ (reqs clients : Directory H),
    (∀ r ∈ reqs, ∀ p ∈ clients, p.1 ≠ r.1) → (reqs.map Prod.fst).Nodup →
    (registerAll clients reqs).map Prod.fst =
      clients.map Prod.fst ++ reqs.map Prod.fst := by
  intro reqs
  induction reqs with
  | nil => intro clients _ _; simp [registerAll]
  | cons r rs ih =>
    intro clients hfresh hnd
    have hfind : clients.find? (fun p => p.1 == r.1) = none :=
      find?_none_of_fresh fun p hp => hfresh r (by simp) p hp
    have hstep : (tryRegister clients r.1 r.2).1 = clients ++ [(r.1, r.2)] := by
      unfold tryRegister
      rw [hfind]
    have hnd2 : (r.1 :: rs.map Prod.fst).Nodup := by
      rw [List.map_cons] at hnd
      exact hnd
    have hnd' : (rs.map Prod.fst).Nodup := (List.nodup_cons.mp hnd2).2
    have hnotin : r.1 ∉ rs.map Prod.fst := (List.nodup_cons.mp hnd2).1
    have : registerAll clients (r :: rs) = registerAll (clients ++ [(r.1, r.2)]) rs := by
      unfold registerAll
      rw [List.foldl_cons, hstep]
    rw [this, ih (clients ++ [(r.1, r.2)]) ?_ hnd']
    · simp
    · intro r2 hr2 p hp
      rcases List.mem_append.mp hp with hp | hp
      · exact hfresh r2 (by simp [hr2]) p hp
      · simp only [List.mem_singleton] at hp
        subst hp
        intro hcontra
        exact hnotin (hcontra ▸ List.mem_map_of_mem Prod.fst hr2)

/-- C5: registering an identity already present always fails and leaves the
directory untouched; registration preserves the one-entry-per-identity
invariant; and after N successful registrations of distinct identities from
the empty directory, the directory holds exactly those N identities. -/
theorem C5_directory_registration {H : Type} (clients : Directory H) (u : List Char)
    (h : H) :
    ((clients.find? (fun p => p.1 == u)).isSome → tryRegister clients u h = (clients, false)) ∧
    ((clients.map Prod.fst).Nodup → ((tryRegister clients u h).1.map Prod.fst).Nodup) ∧
    (∀ reqs : Directory H, (reqs.map Prod.fst).Nodup →
      (registerAll ([] : Directory H) reqs).map Prod.fst = reqs.map Prod.fst ∧
        (registerAll ([] : Directory H) reqs).length = reqs.length) := by
  refine ⟨fun hs => ?_, fun hnd => ?_, fun reqs hnd => ?_⟩
  · unfold tryRegister
    cases hf : clients.find? (fun p => p.1 == u) with
    | none => rw [hf] at hs; simp at hs
    | some pr => rfl
  · unfold tryRegister
    cases hf : clients.find? (fun p => p.1 == u) with
    | none =>
      have hfresh := fresh_of_find?_none hf
      simp only [List.map_append, List.map_cons, List.map_nil, List.nodup_append]
      refine ⟨hnd, by simp, ?_⟩
      intro a ha hb
      simp only [List.mem_cons, List.not_mem_nil, or_false] at hb
      subst hb
      obtain ⟨p, hp, hpa⟩ := List.mem_map.mp ha
      exact hfresh p hp hpa
    | some pr => exact hnd
  · have hmap := registerAll_fresh reqs [] (by simp) hnd
    simp only [List.map_nil, List.nil_append] at hmap
    refine ⟨hmap, ?_⟩
    have := congrArg List.length hmap
    simpa using this

/-- Closed instance of C5 evaluated on concrete inputs. -/
theorem C5_directory_registration_witness :
    tryRegister [(("ann".toList), 1)] ("ann".toList) 2 = ([(("ann".toList), 1)], false) ∧
    (registerAll ([] : Directory Nat)
        [(("ann".toList), 1), (("bob".toList), 2)]).length = 2 :=
  ⟨(C5_directory_registration [(("ann".toList), 1)] ("ann".toList) 2).1 (by decide),
   ((C5_directory_registration ([] : Directory Nat) ("x".toList) 0).2.2
      [(("ann".toList), 1), (("bob".toList), 2)] (by decide)).2⟩

/-! ## Helper lemmas: broadcast fan-out -/

theorem broadcastLoop_unfold {H : Type} (sender content : List Char)
    (sendFails : H → Bool) (q1 : List Char) (q2 : H) (rest : Directory H) :
    broadcastLoop sender content sendFails ((q1, q2) :: rest) =
      if q1 = sender then broadcastLoop sender content sendFails rest
      else if sendFails q2 then
        ((broadcastLoop sender content sendFails rest).1,
          q1 :: (broadcastLoop sender content sendFails rest).2)
      else ((q1, broadcastWire sender content) ::
              (broadcastLoop sender content sendFails rest).1,
            (broadcastLoop sender content sendFails rest).2) := by
  simp only [broadcastLoop, beq_iff_eq]

theorem broadcastLoop_deliver_mem {H : Type} (sender content : List Char)
    (sendFails : H → Bool) :
    ∀ (clients : Directory H) (u : List Char) (s : H), (u, s) ∈ clients →
      u ≠ sender → sendFails s = false →
      (u, broadcastWire sender content) ∈
        (broadcastLoop sender content sendFails clients).1 := by
  intro clients
  induction clients with
  | nil => intro u s h; simp at h
  | cons q rest ih =>
    intro u s hmem hne hok
    obtain ⟨q1, q2⟩ := q
    rw [broadcastLoop_unfold]
    rcases List.mem_cons.mp hmem with heq | hmem2
    · injection heq with e1 e2
      subst e1
      subst e2
      rw [if_neg hne, if_neg (by simp [hok]), List.mem_cons]
      left
      rfl
    · have hrec := ih u s hmem2 hne hok
      by_cases hq : q1 = sender
      · rw [if_pos hq]
        exact hrec
      · rw [if_neg hq]
        by_cases hf : sendFails q2 = true
        · rw [if_pos hf]
          exact hrec
        · rw [if_neg hf]
          exact List.mem_cons_of_mem _ hrec

theorem broadcastLoop_deliver_spec {H : Type} (sender content : List Char)
    (sendFails : H → Bool) :
    ∀ (clients : Directory H) (u msg : List Char),
      (u, msg) ∈ (broadcastLoop sender content sendFails clients).1 →
      msg = broadcastWire sender content ∧ u ≠ sender ∧
        ∃ s, (u, s) ∈ clients ∧ sendFails s = false := by
  intro clients
  induction clients with
  | nil => intro u msg h; simp [broadcastLoop] at h
  | cons q rest ih =>
    intro u msg hmem
    obtain ⟨q1, q2⟩ := q
    rw [broadcastLoop_unfold] at hmem
    by_cases hq : q1 = sender
    · rw [if_pos hq] at hmem
      obtain ⟨hw, hne, s, hs, hf⟩ := ih u msg hmem
      exact ⟨hw, hne, s, List.mem_cons_of_mem _ hs, hf⟩
    · rw [if_neg hq] at hmem
      by_cases hf : sendFails q2 = true
      · rw [if_pos hf] at hmem
        obtain ⟨hw, hne, s, hs, hfs⟩ := ih u msg hmem
        exact ⟨hw, hne, s, List.mem_cons_of_mem _ hs, hfs⟩
      · rw [if_neg hf] at hmem
        rcases List.mem_cons.mp hmem with heq | hmem2
        · injection heq with e1 e2
          subst e1
          subst e2
          exact ⟨rfl, hq, q2, by simp, by simpa using hf⟩
        · obtain ⟨hw, hne, s, hs, hfs⟩ := ih u msg hmem2
          exact ⟨hw, hne, s, List.mem_cons_of_mem _ hs, hfs⟩

theorem broadcastLoop_dc_mem {H : Type} (sender content : List Char)
    (sendFails : H → Bool) :
    ∀ (clients : Directory H) (u : List Char) (s : H), (u, s) ∈ clients →
      u ≠ sender → sendFails s = true →
      u ∈ (broadcastLoop sender content sendFails clients).2 := by
  intro clients
  induction clients with
  | nil => intro u s h; simp at h
  | cons q rest ih =>
    intro u s hmem hne hfail
    obtain ⟨q1, q2⟩ := q
    rw [broadcastLoop_unfold]
    rcases List.mem_cons.mp hmem with heq | hmem2
    · injection heq with e1 e2
      subst e1
      subst e2
      rw [if_neg hne, if_pos hfail, List.mem_cons]
      left
      rfl
    · have hrec := ih u s hmem2 hne hfail
      by_cases hq : q1 = sender
      · rw [if_pos hq]
        exact hrec
      · rw [if_neg hq]
        by_cases hf : sendFails q2 = true
        · rw [if_pos hf]
          exact List.mem_cons_of_mem _ hrec
        · rw [if_neg hf]
          exact hrec

theorem broadcastLoop_dc_spec {H : Type} (sender content : List Char)
    (sendFails : H → Bool) :
    ∀ (clients : Directory H) (u : List Char),
      u ∈ (broadcastLoop sender content sendFails clients).2 →
      u ≠ sender ∧ ∃ s, (u, s) ∈ clients ∧ sendFails s = true := by
  intro clients
  induction clients with
  | nil => intro u h; simp [broadcastLoop] at h
  | cons q rest ih =>
    intro u hmem
    obtain ⟨q1, q2⟩ := q
    rw [broadcastLoop_unfold] at hmem
    by_cases hq : q1 = sender
    · rw [if_pos hq] at hmem
      obtain ⟨hne, s, hs, hf⟩ := ih u hmem
      exact ⟨hne, s, List.mem_cons_of_mem _ hs, hf⟩
    · rw [if_neg hq] at hmem
      by_cases hf : sendFails q2 = true
      · rw [if_pos hf] at hmem
        rcases List.mem_cons.mp hmem with heq | hmem2
        · subst heq
          exact ⟨hq, q2, by simp, hf⟩
        · obtain ⟨hne, s, hs, hfs⟩ := ih u hmem2
          exact ⟨hne, s, List.mem_cons_of_mem _ hs, hfs⟩
      · rw [if_neg hf] at hmem
        obtain ⟨hne, s, hs, hfs⟩ := ih u hmem
        exact ⟨hne, s, List.mem_cons_of_mem _ hs, hfs⟩

theorem nodup_keys_unique {H : Type} :
    ∀ (clients : Directory H), (clients.map Prod.fst).Nodup →
      ∀ (u : List Char) (a b : H), (u, a) ∈ clients → (u, b) ∈ clients → a = b := by
  intro clients
  induction clients with
  | nil => intro _ u a b h; simp at h
  | cons q rest ih =>
    intro hnd u a b ha hb
    obtain ⟨q1, q2⟩ := q
    rw [List.map_cons] at hnd
    have hq1 : q1 ∉ rest.map Prod.fst := (List.nodup_cons.mp hnd).1
    have hnd' : (rest.map Prod.fst).Nodup := (List.nodup_cons.mp hnd).2
    rcases List.mem_cons.mp ha with heq | ha2 <;> rcases List.mem_cons.mp hb with heq2 | hb2
    · obtain ⟨e1, e2⟩ : u = q1 ∧ a = q2 := by cases heq; exact ⟨rfl, rfl⟩
      obtain ⟨e3, e4⟩ : u = q1 ∧ b = q2 := by cases heq2; exact ⟨rfl, rfl⟩
      rw [e2, e4]
    · obtain ⟨e1, e2⟩ : u = q1 ∧ a = q2 := by cases heq; exact ⟨rfl, rfl⟩
      exact absurd (e1 ▸ List.mem_map_of_mem Prod.fst hb2) hq1
    · obtain ⟨e3, e4⟩ : u = q1 ∧ b = q2 := by cases heq2; exact ⟨rfl, rfl⟩
      exact absurd (e3 ▸ List.mem_map_of_mem Prod.fst ha2) hq1
    · exact ih hnd' u a b ha2 hb2

/-- C6: a broadcast from `sender` is delivered to exactly the registered
sessions other than the sender whose sends succeed; a send failure to one
target removes that target from the directory without stopping delivery to
the remaining targets, and non-failing entries stay registered. -/
theorem C6_broadcast_fanout {H : Type} (clients : Directory H)
    (sender content : List Char) (sendFails : H → Bool) :
    (∀ u s, (u, s) ∈ clients → u ≠ sender → sendFails s = false →
      (u, broadcastWire sender content) ∈
        (broadcast_message clients sender content sendFails).1) ∧
    (∀ u msg, (u, msg) ∈ (broadcast_message clients sender content sendFails).1 →
      msg = broadcastWire sender content ∧ u ≠ sender ∧
        ∃ s, (u, s) ∈ clients ∧ sendFails s = false) ∧
    (∀ u s, (u, s) ∈ clients → u ≠ sender → sendFails s = true →
      ∀ t, (u, t) ∉ (broadcast_message clients sender content sendFails).2) ∧
    ((clients.map Prod.fst).Nodup → ∀ p ∈ clients,
      p.1 = sender ∨ sendFails p.2 = false →
      p ∈ (broadcast_message clients sender content sendFails).2) := by
  refine ⟨?_, ?_, ?_, ?_⟩
  · intro u s hmem hne hok
    exact broadcastLoop_deliver_mem sender content sendFails clients u s hmem hne hok
  · intro u msg hmem
    exact broadcastLoop_deliver_spec sender content sendFails clients u msg hmem
  · intro u s hmem hne hfail t hin
    have hdc := broadcastLoop_dc_mem sender content sendFails clients u s hmem hne hfail
    unfold broadcast_message at hin
    have hcond := (List.mem_filter.mp hin).2
    simp at hcond
    exact hcond hdc
  · intro hnd p hp hcase
    unfold broadcast_message
    refine List.mem_filter.mpr ⟨hp, ?_⟩
    simp only [Bool.not_eq_true']
    by_contra hcontra
    simp only [Bool.not_eq_false] at hcontra
    have hpin : p.1 ∈ (broadcastLoop sender content sendFails clients).2 :=
      List.elem_iff.mp hcontra
    obtain ⟨hne, s, hs, hfs⟩ :=
      broadcastLoop_dc_spec sender content sendFails clients p.1 hpin
    rcases hcase with hcase | hcase
    · exact hne hcase
    · have : s = p.2 := nodup_keys_unique clients hnd p.1 s p.2 hs (by simp [hp])
      rw [this, hcase] at hfs
      exact Bool.false_ne_true hfs

/-- Closed instance of C6 evaluated on concrete inputs: with registered
`a`, `b`, `c`, sender `a`, and the send to `b` failing, `c` still gets the
envelope and `b` is removed from the directory. -/
theorem C6_broadcast_fanout_witness :
    ("c".toList, broadcastWire ("a".toList) ("CT".toList)) ∈
      (broadcast_message
        [(("a".toList), 1), (("b".toList), 2), (("c".toList), 3)]
        ("a".toList) ("CT".toList) (fun h => h == 2)).1 ∧
    ("b".toList, 2) ∉
      (broadcast_message
        [(("a".toList), 1), (("b".toList), 2), (("c".toList), 3)]
        ("a".toList) ("CT".toList) (fun h => h == 2)).2 :=
  ⟨(C6_broadcast_fanout
      [(("a".toList), 1), (("b".toList), 2), (("c".toList), 3)]
      ("a".toList) ("CT".toList) (fun h => h == 2)).1
      ("c".toList) 3 (by decide) (by decide) (by decide),
   (C6_broadcast_fanout
      [(("a".toList), 1), (("b".toList), 2), (("c".toList), 3)]
      ("a".toList) ("CT".toList) (fun h => h == 2)).2.2.1
      ("b".toList) 2 (by decide) (by decide) (by decide) 2⟩

/-! ## Helper lemmas: envelope parsing -/

theorem msgSep_chars : msgSep = ['|', '|'] := rfl

theorem splitFirst_sep_free : ∀ (x y : List Char), (∀ c ∈ x, c ≠ '|') →
    splitFirst msgSep (x ++ (msgSep ++ y)) = some (x, y) := by
  intro x
  induction x with
  | nil =>
    intro y _
    simp only [List.nil_append, msgSep_chars]
    simp [splitFirst, startsWith]
  | cons a xs ih =>
    intro y hfree
    have ha : a ≠ '|' := hfree a (by simp)
    have hrest : ∀ c ∈ xs, c ≠ '|' := fun c hc => hfree c (by simp [hc])
    simp only [List.cons_append, splitFirst]
    rw [if_neg (by simp [startsWith, msgSep_chars, ha])]
    simp only [List.append_eq]
    rw [ih y hrest]

theorem splitFirst_sep_none : ∀ s : List Char, (∀ c ∈ s, c ≠ '|') →
    splitFirst msgSep s = none := by
  intro s
  induction s with
  | nil => intro _; simp [splitFirst, msgSep_chars]
  | cons a xs ih =>
    intro hfree
    have ha : a ≠ '|' := hfree a (by simp)
    have hrest : ∀ c ∈ xs, c ≠ '|' := fun c hc => hfree c (by simp [hc])
    simp only [splitFirst]
    rw [if_neg (by simp [startsWith, msgSep_chars, ha]), ih hrest]

theorem pySplit_succ (sep : List Char) (n : Nat) (s : List Char) :
    pySplit sep (n + 1) s = match splitFirst sep s with
      | none => [s]
      | some r => r.1 :: pySplit sep n r.2 := rfl

theorem pySplit_message_parts (r c : List Char) (hr : ∀ ch ∈ r, ch ≠ '|') :
    pySplit msgSep 2 (typeMESSAGE ++ msgSep ++ r ++ msgSep ++ c) =
      [typeMESSAGE, r, c] := by
  have hassoc : typeMESSAGE ++ msgSep ++ r ++ msgSep ++ c =
      typeMESSAGE ++ (msgSep ++ (r ++ (msgSep ++ c))) := by
    simp [List.append_assoc]
  rw [hassoc, pySplit_succ,
    splitFirst_sep_free typeMESSAGE (r ++ (msgSep ++ c)) (by decide)]
  show typeMESSAGE :: pySplit msgSep 1 (r ++ (msgSep ++ c)) = [typeMESSAGE, r, c]
  rw [pySplit_succ, splitFirst_sep_free r c hr]
  rfl

theorem pySplit_broadcast_parts (c : List Char) (hc : ∀ ch ∈ c, ch ≠ '|') :
    pySplit msgSep 2 (typeBROADCAST ++ msgSep ++ c) = [typeBROADCAST, c] := by
  have hassoc : typeBROADCAST ++ msgSep ++ c = typeBROADCAST ++ (msgSep ++ c) := by
    simp [List.append_assoc]
  rw [hassoc, pySplit_succ, splitFirst_sep_free typeBROADCAST c (by decide)]
  show typeBROADCAST :: pySplit msgSep 1 c = [typeBROADCAST, c]
  rw [pySplit_succ, splitFirst_sep_none c hc]

/-- C7: routing a well-formed `MESSAGE` envelope delivers exactly one
envelope, to the named recipient only, carrying the ciphertext field
byte-for-byte and stamped with the authenticated sender of the connection
(the received data carries no sender field at all); when the recipient is
not registered nothing is delivered and the directory is untouched, with no
error produced.  Routing a `BROADCAST` envelope forwards the ciphertext
field byte-for-byte, stamped with the authenticated sender, and never back
to the sender. -/
theorem C7_relay_forwarding {H : Type} (clients : Directory H)
    (sender recipient content : List Char) (sendFails : H → Bool)
    (hr : ∀ ch ∈ recipient, ch ≠ '|') :
    (∀ pr, clients.find? (fun p => p.1 == recipient) = some pr →
      sendFails pr.2 = false →
      route_message clients sender
          (typeMESSAGE ++ msgSep ++ recipient ++ msgSep ++ content) sendFails =
        ([(recipient, directWire sender content)], clients)) ∧
    (clients.find? (fun p => p.1 == recipient) = none →
      route_message clients sender
          (typeMESSAGE ++ msgSep ++ recipient ++ msgSep ++ content) sendFails =
        ([], clients)) ∧
    ((∀ ch ∈ content, ch ≠ '|') →
      ∀ u msg, (u, msg) ∈ (route_message clients sender
          (typeBROADCAST ++ msgSep ++ content) sendFails).1 →
        msg = broadcastWire sender content ∧ u ≠ sender) := by
  have hroute : route_message clients sender
      (typeMESSAGE ++ msgSep ++ recipient ++ msgSep ++ content) sendFails =
      (send_direct_message clients sender recipient content sendFails, clients) := by
    unfold route_message
    rw [pySplit_message_parts recipient content hr]
    rfl
  refine ⟨fun pr hfind hok => ?_, fun hfind => ?_, fun hc u msg hmem => ?_⟩
  · rw [hroute]
    unfold send_direct_message
    rw [hfind]
    show (if sendFails pr.2 = true then []
          else [(recipient, directWire sender content)], clients) = _
    rw [if_neg (by simp [hok])]
  · rw [hroute]
    unfold send_direct_message
    rw [hfind]
  · have hroute2 : route_message clients sender
        (typeBROADCAST ++ msgSep ++ content) sendFails =
        broadcast_message clients sender content sendFails := by
      unfold route_message
      rw [pySplit_broadcast_parts content hc]
      rfl
    rw [hroute2] at hmem
    unfold broadcast_message at hmem
    obtain ⟨hw, hne, _⟩ :=
      broadcastLoop_deliver_spec sender content sendFails clients u msg hmem
    exact ⟨hw, hne⟩

/-- Closed instance of C7 evaluated on concrete inputs. -/
theorem C7_relay_forwarding_witness :
    route_message [(("bob".toList), 1)] ("alice".toList)
        (typeMESSAGE ++ msgSep ++ ("bob".toList) ++ msgSep ++ ("CT||X".toList))
        (fun _ => false) =
      ([(("bob".toList), directWire ("alice".toList) ("CT||X".toList))],
        [(("bob".toList), 1)]) ∧
    route_message ([] : Directory Nat) ("alice".toList)
        (typeMESSAGE ++ msgSep ++ ("bob".toList) ++ msgSep ++ ("CT".toList))
        (fun _ => false) =
      ([], []) :=
  ⟨(C7_relay_forwarding [(("bob".toList), 1)] ("alice".toList) ("bob".toList)
      ("CT||X".toList) (fun _ => false) (by decide)).1
      (("bob".toList), 1) (by decide) (by decide),
   (C7_relay_forwarding ([] : Directory Nat) ("alice".toList) ("bob".toList)
      ("CT".toList) (fun _ => false) (by decide)).2.1 (by decide)⟩

/-! ## Helper lemmas: the stream framer -/

theorem msgDelim_ne_nil : msgDelim ≠ [] := by decide

theorem msgDelim_len : msgDelim.length = 11 := rfl

theorem startsWith_nil_delim : startsWith [] msgDelim = false := rfl

theorem startsWith_length : ∀ (p s : List Char), startsWith s p = true →
    p.length ≤ s.length := by
  intro p
  induction p with
  | nil => intro s _; simp
  | cons d ds ih =>
    intro s hs
    cases s with
    | nil => simp [startsWith] at hs
    | cons c cs =>
      simp only [startsWith, Bool.and_eq_true] at hs
      have := ih cs hs.2
      simp only [List.length_cons]
      omega

theorem startsWith_recover : ∀ (p s : List Char), startsWith s p = true →
    p ++ s.drop p.length = s := by
  intro p
  induction p with
  | nil => intro s _; simp
  | cons d ds ih =>
    intro s hs
    cases s with
    | nil => simp [startsWith] at hs
    | cons c cs =>
      simp only [startsWith, Bool.and_eq_true, beq_iff_eq] at hs
      obtain ⟨rfl, h2⟩ := hs
      simp only [List.length_cons, List.drop_succ_cons, List.cons_append,
        List.cons.injEq, true_and]
      exact ih cs h2

theorem startsWith_append_left : ∀ (p s t : List Char), startsWith s p = true →
    startsWith (s ++ t) p = true := by
  intro p
  induction p with
  | nil => intro s t _; cases s ++ t <;> rfl
  | cons d ds ih =>
    intro s t hs
    cases s with
    | nil => simp [startsWith] at hs
    | cons c cs =>
      simp only [startsWith, Bool.and_eq_true] at hs
      simp only [List.cons_append, startsWith, Bool.and_eq_true]
      exact ⟨hs.1, ih cs t hs.2⟩

theorem startsWith_pat_nil : ∀ s : List Char, startsWith s [] = true := by
  intro s
  cases s <;> rfl

theorem startsWith_append_agree : ∀ (p s t : List Char), p.length ≤ s.length →
    startsWith (s ++ t) p = startsWith s p := by
  intro p
  induction p with
  | nil => intro s t _; rw [startsWith_pat_nil, startsWith_pat_nil]
  | cons d ds ih =>
    intro s t hlen
    cases s with
    | nil => simp at hlen
    | cons c cs =>
      simp only [List.cons_append, startsWith, List.append_eq]
      rw [ih cs t (by simpa using hlen)]

theorem scanAux_cons (fuel : Nat) (cur : List Char) (c : Char) (rest : List Char) :
    scanFramesAux (fuel + 1) cur (c :: rest) =
      if startsWith (c :: rest) msgDelim then
        ((cur :: (scanFramesAux fuel [] ((c :: rest).drop msgDelim.length)).1,
          (scanFramesAux fuel [] ((c :: rest).drop msgDelim.length)).2))
      else scanFramesAux fuel (cur ++ [c]) rest := rfl

theorem scanAux_nil (fuel : Nat) (cur : List Char) :
    scanFramesAux fuel cur [] = ([], cur) := by
  cases fuel <;> rfl

theorem scanAux_fuel : ∀ (f1 : Nat) (s : List Char) (f2 : Nat) (cur : List Char),
    s.length ≤ f1 → s.length ≤ f2 →
    scanFramesAux f1 cur s = scanFramesAux f2 cur s := by
  intro f1
  induction f1 with
  | zero =>
    intro s f2 cur h1 _
    have : s = [] := List.length_eq_zero.mp (by omega)
    subst this
    rw [scanAux_nil, scanAux_nil]
  | succ k ih =>
    intro s f2 cur h1 h2
    cases s with
    | nil => rw [scanAux_nil, scanAux_nil]
    | cons c rest =>
      cases f2 with
      | zero => simp at h2
      | succ k2 =>
        rw [scanAux_cons, scanAux_cons]
        by_cases hm : startsWith (c :: rest) msgDelim = true
        · rw [if_pos hm, if_pos hm]
          have hd : ((c :: rest).drop msgDelim.length).length ≤ k := by
            simp only [List.length_drop, msgDelim_len, List.length_cons] at *
            omega
          have hd2 : ((c :: rest).drop msgDelim.length).length ≤ k2 := by
            simp only [List.length_drop, msgDelim_len, List.length_cons] at *
            omega
          rw [ih _ k2 [] hd hd2]
        · rw [if_neg hm, if_neg hm]
          exact ih rest k2 (cur ++ [c])
            (by simp only [List.length_cons] at h1; omega)
            (by simp only [List.length_cons] at h2; omega)

theorem scanFrames_nil (cur : List Char) : scanFrames cur [] = ([], cur) := rfl

theorem scanFrames_cons (cur : List Char) (c : Char) (rest : List Char) :
    scanFrames cur (c :: rest) =
      if startsWith (c :: rest) msgDelim then
        ((cur :: (scanFrames [] ((c :: rest).drop msgDelim.length)).1,
          (scanFrames [] ((c :: rest).drop msgDelim.length)).2))
      else scanFrames (cur ++ [c]) rest := by
  unfold scanFrames
  rw [show (c :: rest).length = rest.length + 1 from rfl, scanAux_cons]
  by_cases hm : startsWith (c :: rest) msgDelim = true
  · rw [if_pos hm, if_pos hm,
      scanAux_fuel rest.length _ ((c :: rest).drop msgDelim.length).length []
        (by simp only [List.length_drop, msgDelim_len, List.length_cons]; omega) le_rfl]
  · rw [if_neg hm, if_neg hm]

theorem drop_append_le {α : Type} : ∀ (L : List α) (R : List α) (i : Nat),
    i ≤ L.length → (L ++ R).drop i = L.drop i ++ R := by
  intro L
  induction L with
  | nil =>
    intro R i hi
    simp at hi
    subst hi
    simp
  | cons a as ih =>
    intro R i hi
    cases i with
    | zero => simp
    | succ j =>
      simp only [List.cons_append, List.drop_succ_cons]
      exact ih R j (by simpa using hi)

theorem scanFrames_rejoin : ∀ (n : Nat) (s : List Char), s.length ≤ n →
    ∀ cur, rejoin (scanFrames cur s).1 (scanFrames cur s).2 = cur ++ s := by
  intro n
  induction n with
  | zero =>
    intro s hs cur
    have : s = [] := List.length_eq_zero.mp (by omega)
    subst this
    rw [scanFrames_nil]
    simp [rejoin]
  | succ k ih =>
    intro s hs cur
    cases s with
    | nil => rw [scanFrames_nil]; simp [rejoin]
    | cons c rest =>
      rw [scanFrames_cons]
      by_cases hm : startsWith (c :: rest) msgDelim = true
      · rw [if_pos hm]
        simp only [rejoin]
        rw [ih ((c :: rest).drop msgDelim.length)
          (by simp only [List.length_drop, msgDelim_len, List.length_cons] at hs ⊢
              omega) []]
        simp only [List.nil_append]
        rw [List.append_assoc, startsWith_recover msgDelim (c :: rest) hm]
      · rw [if_neg hm,
          ih rest (by simp only [List.length_cons] at hs; omega) (cur ++ [c])]
        simp

theorem containsSub_false_iff : ∀ s : List Char, containsSub msgDelim s = false ↔
    ∀ i, startsWith (s.drop i) msgDelim = false := by
  intro s
  induction s with
  | nil =>
    constructor
    · intro _ i
      rw [List.drop_nil]
      exact startsWith_nil_delim
    · intro _
      decide
  | cons c rest ih =>
    have hcs : containsSub msgDelim (c :: rest) =
        (startsWith (c :: rest) msgDelim || containsSub msgDelim rest) := rfl
    rw [hcs, Bool.or_eq_false_iff, ih]
    constructor
    · rintro ⟨h0, hrest⟩ i
      cases i with
      | zero => simpa using h0
      | succ j => simpa using hrest j
    · intro h
      exact ⟨by simpa using h 0, fun j => by simpa using h (j + 1)⟩

theorem scanFrames_buffer_nodelim : ∀ (n : Nat) (s : List Char), s.length ≤ n →
    ∀ cur, (∀ i, i < cur.length → startsWith (cur.drop i ++ s) msgDelim = false) →
    ∀ i, startsWith ((scanFrames cur s).2.drop i) msgDelim = false := by
  intro n
  induction n with
  | zero =>
    intro s hs cur hinv i
    have : s = [] := List.length_eq_zero.mp (by omega)
    subst this
    rw [scanFrames_nil]
    show startsWith (cur.drop i) msgDelim = false
    by_cases hi : i < cur.length
    · have := hinv i hi
      simpa using this
    · rw [List.drop_eq_nil_of_le (by omega)]
      exact startsWith_nil_delim
  | succ k ih =>
    intro s hs cur hinv i
    cases s with
    | nil =>
      rw [scanFrames_nil]
      show startsWith (cur.drop i) msgDelim = false
      by_cases hi : i < cur.length
      · have := hinv i hi
        simpa using this
      · rw [List.drop_eq_nil_of_le (by omega)]
        exact startsWith_nil_delim
    | cons c rest =>
      rw [scanFrames_cons]
      by_cases hm : startsWith (c :: rest) msgDelim = true
      · rw [if_pos hm]
        exact ih ((c :: rest).drop msgDelim.length)
          (by simp only [List.length_drop, msgDelim_len, List.length_cons] at hs ⊢
              omega)
          [] (by intro j hj; simp at hj) i
      · rw [if_neg hm]
        refine ih rest (by simp only [List.length_cons] at hs; omega) (cur ++ [c])
          ?_ i
        intro j hj
        simp only [List.length_append, List.length_cons, List.length_nil] at hj
        by_cases hjc : j < cur.length
        · rw [drop_append_le cur [c] j (by omega), List.append_assoc]
          have := hinv j hjc
          simpa using this
        · have hjeq : j = cur.length := by omega
          subst hjeq
          rw [drop_len_append rfl]
          simpa using hm

theorem scanFrames_spans_nodelim : ∀ (n : Nat) (s : List Char), s.length ≤ n →
    ∀ cur, (∀ i, i < cur.length → startsWith (cur.drop i ++ s) msgDelim = false) →
    ∀ m ∈ (scanFrames cur s).1, containsSub msgDelim m = false := by
  intro n
  induction n with
  | zero =>
    intro s hs cur _ m hm
    have : s = [] := List.length_eq_zero.mp (by omega)
    subst this
    rw [scanFrames_nil] at hm
    simp at hm
  | succ k ih =>
    intro s hs cur hinv m hmem
    cases s with
    | nil =>
      rw [scanFrames_nil] at hmem
      simp at hmem
    | cons c rest =>
      rw [scanFrames_cons] at hmem
      by_cases hm : startsWith (c :: rest) msgDelim = true
      · rw [if_pos hm] at hmem
        rcases List.mem_cons.mp hmem with heq | htail
        · subst heq
          rw [containsSub_false_iff]
          intro j
          by_cases hj : j < m.length
          · cases hsw : startsWith (m.drop j) msgDelim
            · rfl
            · have hlift := startsWith_append_left msgDelim (m.drop j) (c :: rest) hsw
              have := hinv j hj
              rw [this] at hlift
              exact absurd hlift (by simp)
          · rw [List.drop_eq_nil_of_le (by omega)]
            exact startsWith_nil_delim
        · exact ih ((c :: rest).drop msgDelim.length)
            (by simp only [List.length_drop, msgDelim_len, List.length_cons] at hs ⊢
                omega)
            [] (by intro j hj; simp at hj) m htail
      · rw [if_neg hm] at hmem
        refine ih rest (by simp only [List.length_cons] at hs; omega) (cur ++ [c])
          ?_ m hmem
        intro j hj
        simp only [List.length_append, List.length_cons, List.length_nil] at hj
        by_cases hjc : j < cur.length
        · rw [drop_append_le cur [c] j (by omega), List.append_assoc]
          have := hinv j hjc
          simpa using this
        · have hjeq : j = cur.length := by omega
          subst hjeq
          rw [drop_len_append rfl]
          simpa using hm

theorem scanFrames_short : ∀ (s : List Char), s.length < msgDelim.length →
    ∀ cur, scanFrames cur s = ([], cur ++ s) := by
  intro s
  induction s with
  | nil => intro _ cur; rw [scanFrames_nil]; simp
  | cons c rest ih =>
    intro hlen cur
    have hm : ¬(startsWith (c :: rest) msgDelim = true) := by
      intro h
      have := startsWith_length msgDelim (c :: rest) h
      omega
    rw [scanFrames_cons, if_neg hm,
      ih (by simp only [List.length_cons] at hlen ⊢; omega) (cur ++ [c])]
    simp

theorem scanFrames_shift : ∀ (cur pre z : List Char),
    (∀ i, i < cur.length → startsWith (cur.drop i ++ z) msgDelim = false) →
    scanFrames pre (cur ++ z) = scanFrames (pre ++ cur) z := by
  intro cur
  induction cur with
  | nil => intro pre z _; simp
  | cons c cur2 ih =>
    intro pre z hinv
    have h0 : startsWith (c :: (cur2 ++ z)) msgDelim = false := by
      have := hinv 0 (by simp)
      simpa using this
    rw [show (c :: cur2) ++ z = c :: (cur2 ++ z) from rfl, scanFrames_cons,
      if_neg (by simp [h0])]
    rw [ih (pre ++ [c]) z ?_]
    · rw [List.append_assoc]
      rfl
    · intro j hj
      have := hinv (j + 1) (by simp only [List.length_cons]; omega)
      simpa using this

theorem scanFrames_comp : ∀ (n : Nat) (x : List Char), x.length ≤ n →
    ∀ (cur y : List Char),
    (∀ i, i < cur.length → startsWith (cur.drop i ++ (x ++ y)) msgDelim = false) →
    scanFrames cur (x ++ y) =
      ((scanFrames cur x).1 ++ (scanFrames [] ((scanFrames cur x).2 ++ y)).1,
       (scanFrames [] ((scanFrames cur x).2 ++ y)).2) := by
  intro n
  induction n with
  | zero =>
    intro x hx cur y hinv
    have : x = [] := List.length_eq_zero.mp (by omega)
    subst this
    simp only [List.nil_append, scanFrames_nil]
    rw [scanFrames_shift cur [] y (by intro i hi; have := hinv i hi; simpa using this)]
    simp
  | succ k ih =>
    intro x hx cur y hinv
    cases x with
    | nil =>
      simp only [List.nil_append, scanFrames_nil]
      rw [scanFrames_shift cur [] y
        (by intro i hi; have := hinv i hi; simpa using this)]
      simp
    | cons c xr =>
      by_cases hm : startsWith ((c :: xr) ++ y) msgDelim = true
      · by_cases hx2 : startsWith (c :: xr) msgDelim = true
        · have h11x : msgDelim.length ≤ (c :: xr).length :=
            startsWith_length msgDelim (c :: xr) hx2
          have hdrop : (c :: (xr ++ y)).drop msgDelim.length =
              (c :: xr).drop msgDelim.length ++ y :=
            drop_append_le (c :: xr) y msgDelim.length h11x
          have ihx := ih ((c :: xr).drop msgDelim.length)
            (by simp only [List.length_drop, msgDelim_len, List.length_cons] at hx ⊢
                omega)
            [] y (by intro i hi; simp at hi)
          simp only [List.nil_append] at ihx
          rw [show (c :: xr) ++ y = c :: (xr ++ y) from rfl,
            scanFrames_cons cur c (xr ++ y), if_pos (by exact hm), hdrop, ihx,
            scanFrames_cons cur c xr, if_pos hx2]
          simp [List.cons_append]
        · have hlen : (c :: xr).length < msgDelim.length := by
            by_contra hge
            push_neg at hge
            rw [startsWith_append_agree msgDelim (c :: xr) y hge] at hm
            exact absurd hm (by simp [hx2])
          rw [scanFrames_short (c :: xr) hlen cur]
          show scanFrames cur ((c :: xr) ++ y) =
            ([] ++ (scanFrames [] ((cur ++ (c :: xr)) ++ y)).1,
             (scanFrames [] ((cur ++ (c :: xr)) ++ y)).2)
          rw [List.append_assoc,
            scanFrames_shift cur [] ((c :: xr) ++ y) (by intro i hi; exact hinv i hi)]
          simp
      · have hx2 : startsWith (c :: xr) msgDelim = false := by
          cases h : startsWith (c :: xr) msgDelim
          · rfl
          · have := startsWith_append_left msgDelim (c :: xr) y h
            rw [this] at hm
            exact absurd rfl hm
        have hm2 : ¬(startsWith (c :: (xr ++ y)) msgDelim = true) := hm
        rw [show (c :: xr) ++ y = c :: (xr ++ y) from rfl,
          scanFrames_cons cur c (xr ++ y), if_neg hm2,
          scanFrames_cons cur c xr, if_neg (by simp [hx2])]
        refine ih xr (by simp only [List.length_cons] at hx; omega) (cur ++ [c]) y ?_
        intro j hj
        simp only [List.length_append, List.length_cons, List.length_nil] at hj
        by_cases hjc : j < cur.length
        · rw [drop_append_le cur [c] j (by omega), List.append_assoc]
          have := hinv j hjc
          simpa using this
        · have hjeq : j = cur.length := by omega
          subst hjeq
          rw [drop_len_append rfl]
          show startsWith (c :: (xr ++ y)) msgDelim = false
          cases h : startsWith (c :: (xr ++ y)) msgDelim
          · rfl
          · exact absurd h hm

/-- The receive loop over many reads behaves like one scan of the whole
concatenated byte stream. -/
theorem foldFrames_spec : ∀ reads : List (List Char),
    foldFrames reads =
      ((scanFrames [] reads.flatten).1.filter (fun m => !(pyStrip m).isEmpty),
       (scanFrames [] reads.flatten).2) := by
  intro reads
  induction reads using List.reverseRecOn with
  | nil => rfl
  | append_singleton rs r ih =>
    have hstep : foldFrames (rs ++ [r]) =
        ((foldFrames rs).1 ++ (receiveStep (foldFrames rs).2 r).1,
         (receiveStep (foldFrames rs).2 r).2) := by
      unfold foldFrames
      rw [List.foldl_append]
      rfl
    rw [hstep, ih]
    have hflat : (rs ++ [r]).flatten = rs.flatten ++ r := by simp
    rw [hflat]
    rw [scanFrames_comp rs.flatten.length rs.flatten le_rfl [] r
      (by intro i hi; simp at hi)]
    unfold receiveStep
    simp [List.filter_append]

/-- C8 fails on the code in one detail: a span is handed to envelope
processing in its ORIGINAL form, not trimmed — `message.strip()` is used
only for the emptiness test, and the code comment says "Pass original,
don't strip".  A span with leading whitespace is delivered untrimmed. -/
theorem C8_counterexample :
    (receiveStep [] ((" X").toList ++ msgDelim)).1 = [(" X").toList] ∧
    pyStrip ((" X").toList) = ("X").toList ∧
    [(" X").toList] ≠ [("X").toList] :=
  ⟨by decide, by decide, by decide⟩

/-- C8 (amended): on each read the framer extracts every complete
delimiter-terminated span of `buffer ++ data` in arrival order (the spans
and the retained trailing buffer reassemble the input exactly), no
delimiter occurrence survives inside a span or the retained buffer (so no
envelope is delivered before its delimiter has fully arrived), and a span
is handed on — untrimmed — exactly when its stripped form is non-empty
(whitespace-only and empty spans are silently skipped).  Folding the loop
over any sequence of reads equals one scan of the concatenated stream. -/
theorem C8_framer_extraction (buffer data : List Char) :
    rejoin (scanFrames [] (buffer ++ data)).1 (scanFrames [] (buffer ++ data)).2 =
      buffer ++ data ∧
    containsSub msgDelim (scanFrames [] (buffer ++ data)).2 = false ∧
    (∀ m ∈ (scanFrames [] (buffer ++ data)).1, containsSub msgDelim m = false) ∧
    receiveStep buffer data =
      ((scanFrames [] (buffer ++ data)).1.filter (fun m => !(pyStrip m).isEmpty),
       (scanFrames [] (buffer ++ data)).2) ∧
    (∀ reads : List (List Char),
      foldFrames reads =
        ((scanFrames [] reads.flatten).1.filter (fun m => !(pyStrip m).isEmpty),
         (scanFrames [] reads.flatten).2)) := by
  refine ⟨?_, ?_, ?_, rfl, foldFrames_spec⟩
  · exact scanFrames_rejoin (buffer ++ data).length (buffer ++ data) le_rfl []
      |>.trans (by simp)
  · rw [containsSub_false_iff]
    exact scanFrames_buffer_nodelim (buffer ++ data).length (buffer ++ data) le_rfl
      [] (by intro i hi; simp at hi)
  · exact scanFrames_spans_nodelim (buffer ++ data).length (buffer ++ data) le_rfl
      [] (by intro i hi; simp at hi)

/-- Closed instance of the amended C8 evaluated on concrete inputs. -/
theorem C8_framer_extraction_witness :
    rejoin (scanFrames [] (("A").toList ++ msgDelim ++ ("pa").toList)).1
        (scanFrames [] (("A").toList ++ msgDelim ++ ("pa").toList)).2 =
      ("A").toList ++ msgDelim ++ ("pa").toList ∧
    foldFrames [("A\n###MSG").toList, ("###\nB").toList] =
      ((scanFrames [] (("A\n###MSG").toList ++ ("###\nB").toList)).1.filter
        (fun m => !(pyStrip m).isEmpty),
       (scanFrames [] (("A\n###MSG").toList ++ ("###\nB").toList)).2) :=
  ⟨by
    have h := (C8_framer_extraction (("A").toList ++ msgDelim) (("pa").toList)).1
    simpa [List.append_assoc] using h,
   by
    have h := (C8_framer_extraction [] []).2.2.2.2
      [("A\n###MSG").toList, ("###\nB").toList]
    simpa using h⟩

end Cryptex
